import Mathlib

/-!
Shallow embedding of a C toolkit of manual memory allocators:
a global linear (bump) allocator, a fixed buffer allocator (FBA),
a chained-block arena, and a fixed-size block (slab) allocator.

Addresses and sizes are modelled as natural numbers (they are C
pointers / `size_t` values), and wherever the C code computes with the
machine word width in defined behavior the modulus `2 ^ 64` is carried
explicitly: the `ALIGN_TO` mask (two's-complement negation on
`uintptr_t`) and `linear.c`'s `size_t` head arithmetic, which wraps.
Out-parameters become explicit state passing: a C function that
mutates an allocator and returns a pointer becomes a Lean function
returning `Option Nat × state`, where `none` models a `NULL` result.
The arena obtains blocks from `malloc`; each potential `malloc` call
is modelled by an oracle argument `Option Nat` giving the address the
backing allocator returns, or `none` for a failed backing allocation.
-/

namespace Allocators

/-- `ALIGN_TO(_value, _alignment)` from `fba.h` / `arena.h`:
`((_value) + ((_alignment) - 1) & -(_alignment))`.  In C, `+` binds
tighter than `&`, and the negation is two's complement on the 64-bit
`uintptr_t`, i.e. `-a ≡ 2 ^ 64 - a (mod 2 ^ 64)`.  Since the mask is
`< 2 ^ 64`, taking `&&&` with it also truncates the sum to 64 bits,
exactly as the machine does. -/
def ALIGN_TO (value alignment : Nat) : Nat :=
  (value + (alignment - 1)) &&& ((2 ^ 64 - alignment) % 2 ^ 64)

/-! ## Linear allocator (`linear.c`)

A statically sized global buffer and a global `size_t head`.  The
returned pointer `&buffer[head]` is modelled as the offset `head`
into the buffer. -/

def BUFFER_SIZE : Nat := 1024

structure linear_state where
  head : Nat
deriving DecidableEq, Repr

/-- `allocate` from `linear.c`: grab `&buffer[head]`, advance `head`
by `size` (also on failure!), fail iff the new head passed the end.
`head` is a `size_t`, so `head += size` wraps modulo `2 ^ 64` with
defined behavior — the modulus is carried explicitly. -/
def allocate (s : linear_state) (size : Nat) : Option Nat × linear_state :=
  let mem := s.head
  let head := (s.head + size) % 2 ^ 64
  if BUFFER_SIZE < head then (none, ⟨head⟩) else (some mem, ⟨head⟩)

/-- Run a whole sequence of `allocate` calls, returning the results in
order together with the final state. -/
def linear_run (s : linear_state) : List Nat → List (Option Nat) × linear_state
  | [] => ([], s)
  | size :: rest =>
    let (r, s1) := allocate s size
    let (rs, s2) := linear_run s1 rest
    (r :: rs, s2)

/-! ## Fixed buffer allocator (`fba.h`) -/

structure fba_t where
  buffer : Nat
  buffer_end : Nat
  head : Nat
deriving DecidableEq, Repr

/-- `fba_init`. -/
def fba_init (buffer buffer_size : Nat) : fba_t :=
  { buffer := buffer, buffer_end := buffer + buffer_size, head := buffer }

/-- `fba_reset`. -/
def fba_reset (fba : fba_t) : fba_t := { fba with head := fba.buffer }

/-- `fba_alloc_opt`: align the head up, fail (without mutating) if the
aligned head plus `size` passes `buffer_end`, otherwise advance the
head and return the aligned old head. -/
def fba_alloc_opt (fba : fba_t) (size align : Nat) : Option Nat × fba_t :=
  let head := ALIGN_TO fba.head align
  if fba.buffer_end < head + size then (none, fba)
  else (some head, { fba with head := head + size })

/-- Run a sequence of `fba_alloc_opt` calls (`(size, align)` pairs). -/
def fba_run (fba : fba_t) : List (Nat × Nat) → List (Option Nat) × fba_t
  | [] => ([], fba)
  | (size, align) :: rest =>
    let (r, f1) := fba_alloc_opt fba size align
    let (rs, f2) := fba_run f1 rest
    (r :: rs, f2)

/-! ## Arena allocator (`arena.h`)

`arena_block_t` is a `malloc`ed region of `ARENA_BLOCK_SIZE` bytes
whose header (`next`, `buffer_end`, `head`: three 8-byte fields)
sits at the front and whose flexible `buffer` member starts right
after the header.  The `next` pointers are represented by the order
of the `blocks` list (front = most recently prepended). -/

def ARENA_BLOCK_SIZE : Nat := 1024

/-- `sizeof(arena_block_t)`: `next`, `buffer_end`, `head` are 8 bytes
each, and the flexible array member contributes no size. -/
def ARENA_HEADER_SIZE : Nat := 24

structure arena_block_t where
  buffer_end : Nat
  head : Nat
  /-- address of the flexible `buffer` member, i.e. block address
  plus `ARENA_HEADER_SIZE`. -/
  buffer : Nat
deriving DecidableEq, Repr

structure arena_t where
  blocks : List arena_block_t
deriving DecidableEq, Repr

/-- `arena_block_init` on a block `malloc`ed at address `addr`
(with `next` handled by the list structure). -/
def arena_block_init (addr : Nat) : arena_block_t :=
  { buffer_end := addr + ARENA_BLOCK_SIZE
    head := addr + ARENA_HEADER_SIZE
    buffer := addr + ARENA_HEADER_SIZE }

/-- `arena_block_alloc`: bump allocation inside one block. -/
def arena_block_alloc (b : arena_block_t) (size align : Nat) :
    Option Nat × arena_block_t :=
  let head := ALIGN_TO b.head align
  if b.buffer_end < head + size then (none, b)
  else (some head, { b with head := head + size })

/-- `arena_new_block`: `malloc` a block (modelled by the oracle `m`),
initialize it and prepend it to the list.  Returns `none` and leaves
the arena untouched when the backing allocation fails. -/
def arena_new_block (a : arena_t) (m : Option Nat) :
    Option arena_block_t × arena_t :=
  match m with
  | none => (none, a)
  | some addr =>
    let blk := arena_block_init addr
    (some blk, ⟨blk :: a.blocks⟩)

/-- `arena_get_block`: the most recent block, lazily allocating the
first one. -/
def arena_get_block (a : arena_t) (m : Option Nat) :
    Option arena_block_t × arena_t :=
  match a.blocks with
  | blk :: _ => (some blk, a)
  | [] => arena_new_block a m

/-- Result of `arena_alloc`: either a returned value (`NULL` = `none`)
with the new arena, or a crash.  The crash case models the missing
`NULL` check in `arena.h` line 69: when the second `arena_new_block`
fails, the C code passes the null block pointer straight into
`arena_block_alloc`, which dereferences `b->head`. -/
inductive ArenaResult where
  | ok (ptr : Option Nat) (a : arena_t)
  | fault
deriving DecidableEq, Repr

/-- `arena_alloc`: try the most recent block (creating the first block
lazily), and on failure create one brand-new block and retry exactly
once.  `m1` is the oracle for the possible `malloc` inside
`arena_get_block`, `m2` for the one in the retry path. -/
def arena_alloc (a : arena_t) (size align : Nat) (m1 m2 : Option Nat) :
    ArenaResult :=
  match arena_get_block a m1 with
  | (none, a1) => .ok none a1
  | (some blk, a1) =>
    match arena_block_alloc blk size align with
    | (some buf, blk1) => .ok (some buf) ⟨blk1 :: a1.blocks.tail⟩
    | (none, _) =>
      match arena_new_block a1 m2 with
      | (none, _) => .fault
      | (some blk2, a2) =>
        let (buf2, blk3) := arena_block_alloc blk2 size align
        .ok buf2 ⟨blk3 :: a2.blocks.tail⟩

/-- `arena_clear`: free every block, leaving the list empty. -/
def arena_clear (_ : arena_t) : arena_t := ⟨[]⟩

/-! ## Block (slab) allocator (`block_allocator.h`)

The intrusive free list threaded through the cells is represented as
the list of the free cells' addresses, front = head of the list. -/

structure block_allocator_t where
  buffer : Nat
  buffer_end : Nat
  blocks : List Nat
deriving DecidableEq, Repr

/-- The free list built by `ba_init`'s loop after `count` iterations:
cell `i` (at `buffer + i * item_size`) is pushed at step `i`, so the
head is the last cell and the links descend to cell `0`. -/
def ba_init_list (buffer item_size : Nat) : Nat → List Nat
  | 0 => []
  | count + 1 => (buffer + count * item_size) :: ba_init_list buffer item_size count

/-- `ba_init` (under its `assert(item_size >= sizeof(block_allocator_block_t))`,
i.e. `8 ≤ item_size`, carried as a hypothesis by the theorems that use
reachable states): thread `buffer_size / item_size` cells into a free
list. -/
def ba_init (buffer buffer_size item_size : Nat) : block_allocator_t :=
  let item_count := buffer_size / item_size
  { buffer := buffer
    buffer_end := buffer + buffer_size
    blocks := ba_init_list buffer item_size item_count }

/-- `ba_alloc`: pop the head of the free list (the `memset` clears the
link word inside the returned cell, which the free-list abstraction
does not track). -/
def ba_alloc (ba : block_allocator_t) : Option Nat × block_allocator_t :=
  match ba.blocks with
  | [] => (none, ba)
  | blk :: rest => (some blk, { ba with blocks := rest })

/-- `ba_free`: silently ignore pointers outside `[buffer, buffer_end]`
(upper bound inclusive), otherwise push onto the front of the free
list. -/
def ba_free (ba : block_allocator_t) (ptr : Nat) : block_allocator_t :=
  if ptr < ba.buffer ∨ ba.buffer_end < ptr then ba
  else { ba with blocks := ptr :: ba.blocks }

/-- Iterate `ba_alloc` `n` times. -/
def ba_alloc_n (ba : block_allocator_t) : Nat → List (Option Nat) × block_allocator_t
  | 0 => ([], ba)
  | n + 1 =>
    let (r, ba1) := ba_alloc ba
    let (rs, ba2) := ba_alloc_n ba1 n
    (r :: rs, ba2)

/-! ## Invariants and ghost traces used by the theorems

These are specification-side notions (not part of the C code): the
shape every arena block created by `arena_block_init` has, disjointness
of `malloc`ed block regions, and a relational trace of successful
`arena_alloc` calls. -/

/-- The shape of every (reachable) arena block: the geometry laid down
by `arena_block_init` at some address `≤ 2 ^ 63 - ARENA_BLOCK_SIZE`
(a sane user-space `malloc` result), with the head inside the block's
buffer. -/
def arena_block_inv (b : arena_block_t) : Prop :=
  b.buffer + (ARENA_BLOCK_SIZE - ARENA_HEADER_SIZE) = b.buffer_end ∧
  b.buffer ≤ b.head ∧ b.head ≤ b.buffer_end ∧
  ARENA_BLOCK_SIZE ≤ b.buffer_end ∧ b.buffer_end ≤ 2 ^ 63

instance arena_block_inv_dec (b : arena_block_t) :
    Decidable (arena_block_inv b) := by
  unfold arena_block_inv
  exact inferInstance

/-- The 1024-byte regions `[e - ARENA_BLOCK_SIZE, e)` of two blocks,
identified by their `buffer_end` addresses `e`, do not overlap. -/
def region_disjoint (e1 e2 : Nat) : Prop :=
  e1 ≤ e2 - ARENA_BLOCK_SIZE ∨ e2 ≤ e1 - ARENA_BLOCK_SIZE

instance region_disjoint_dec (e1 e2 : Nat) :
    Decidable (region_disjoint e1 e2) := by
  unfold region_disjoint
  exact inferInstance

/-- A well-formed arena: every block has the `arena_block_init` shape
and distinct blocks occupy disjoint `malloc`ed regions. -/
def arena_inv (a : arena_t) : Prop :=
  (∀ b ∈ a.blocks, arena_block_inv b) ∧
  a.blocks.Pairwise (fun b1 b2 => region_disjoint b1.buffer_end b2.buffer_end)

instance arena_inv_dec (a : arena_t) : Decidable (arena_inv a) := by
  unfold arena_inv
  exact inferInstance

/-- The `buffer_end` addresses of an arena's blocks. -/
def block_ends (a : arena_t) : List Nat := a.blocks.map (fun b => b.buffer_end)

/-- All backing addresses a request list (of `(size, align, m1, m2)`
quadruples) can consume, in call order. -/
def req_addrs : List (Nat × Nat × Option Nat × Option Nat) → List Nat
  | [] => []
  | (_, _, m1, m2) :: rest => m1.toList ++ m2.toList ++ req_addrs rest

/-- Every requested alignment is a power of two representable in
`size_t`. -/
def aligns_pow2 (reqs : List (Nat × Nat × Option Nat × Option Nat)) : Prop :=
  ∀ r ∈ reqs, ∃ k, k ≤ 63 ∧ r.2.1 = 2 ^ k

/-- The backing allocator behaves like `malloc`: every address it hands
out carries a fresh `ARENA_BLOCK_SIZE`-byte region inside the address
space, disjoint from the arena's existing blocks and from every other
handed-out region. -/
def oracle_fresh (a : arena_t)
    (reqs : List (Nat × Nat × Option Nat × Option Nat)) : Prop :=
  (∀ addr ∈ req_addrs reqs,
    addr + ARENA_BLOCK_SIZE ≤ 2 ^ 63 ∧
    ∀ b ∈ a.blocks, region_disjoint b.buffer_end (addr + ARENA_BLOCK_SIZE)) ∧
  (req_addrs reqs).Pairwise
    (fun x y => region_disjoint (x + ARENA_BLOCK_SIZE) (y + ARENA_BLOCK_SIZE))

instance oracle_fresh_dec (a : arena_t)
    (reqs : List (Nat × Nat × Option Nat × Option Nat)) :
    Decidable (oracle_fresh a reqs) := by
  unfold oracle_fresh
  exact inferInstance

/-- `ArenaTrace a reqs out a2`: starting from arena `a`, the requests
`reqs` (each `(size, align, m1, m2)` with its two `malloc` oracles) all
succeed in order, producing the ghost allocation record `out` — one
`(pointer, size, serving block's buffer_end)` triple per call — and
the final arena `a2`.  On success the serving block is always the
front block of the post-call arena. -/
inductive ArenaTrace :
    arena_t → List (Nat × Nat × Option Nat × Option Nat) →
    List (Nat × Nat × Nat) → arena_t → Prop
  | nil (a : arena_t) : ArenaTrace a [] [] a
  | cons {a : arena_t} {size align : Nat} {m1 m2 : Option Nat} {p : Nat}
      {b1 : arena_block_t} {rest1 : List arena_block_t}
      {reqs : List (Nat × Nat × Option Nat × Option Nat)}
      {out : List (Nat × Nat × Nat)} {a2 : arena_t}
      (hstep : arena_alloc a size align m1 m2 = .ok (some p) ⟨b1 :: rest1⟩)
      (htail : ArenaTrace ⟨b1 :: rest1⟩ reqs out a2) :
      ArenaTrace a ((size, align, m1, m2) :: reqs)
        ((p, size, b1.buffer_end) :: out) a2

/-- `Chained lo l hi`: the `(pointer, size)` ranges in `l` lie between
`lo` and `hi` in order, each range starting no earlier than `lo` and
ending no later than the next begins. -/
def Chained (lo : Nat) : List (Nat × Nat) → Nat → Prop
  | [], hi => lo ≤ hi
  | (p, size) :: rest, hi => lo ≤ p ∧ Chained (p + size) rest hi

/-! ## Arithmetic facts about `ALIGN_TO` -/

/-- ANDing with a mask whose low `k` bits are clear factors through
dropping the low `k` bits. -/
theorem and_shiftLeft_eq (x m k : Nat) :
    x &&& (m <<< k) = ((x >>> k) &&& m) <<< k := by
  apply Nat.eq_of_testBit_eq
  intro i
  rcases Nat.lt_or_ge i k with h | h
  · rw [Nat.testBit_and, Nat.testBit_shiftLeft, Nat.testBit_shiftLeft]
    simp [Nat.not_le.mpr h]
  · rw [Nat.testBit_and, Nat.testBit_shiftLeft, Nat.testBit_shiftLeft,
      Nat.testBit_and, Nat.testBit_shiftRight]
    have hki : k + (i - k) = i := by omega
    simp [h, hki]

/-- For a power-of-two alignment that fits in the word, `ALIGN_TO` is
rounding the (64-bit truncated) sum `v + 2 ^ k - 1` down to a multiple
of `2 ^ k`. -/
theorem ALIGN_TO_pow2 (v k : Nat) (hk : k ≤ 64) :
    ALIGN_TO v (2 ^ k) = (v + (2 ^ k - 1)) % 2 ^ 64 / 2 ^ k * 2 ^ k := by
  have hsplit : 2 ^ (64 - k) * 2 ^ k = 2 ^ 64 := by
    rw [← pow_add]
    congr 1
    omega
  have hkpos := Nat.two_pow_pos k
  have hk64pos := Nat.two_pow_pos (64 - k)
  have hmask : (2 ^ 64 - 2 ^ k) % 2 ^ 64 = 2 ^ 64 - 2 ^ k :=
    Nat.mod_eq_of_lt (by omega)
  have hmask2 : 2 ^ 64 - 2 ^ k = (2 ^ (64 - k) - 1) <<< k := by
    rw [Nat.shiftLeft_eq, Nat.sub_mul, one_mul, hsplit]
  unfold ALIGN_TO
  rw [hmask, hmask2, and_shiftLeft_eq, Nat.shiftRight_eq_div_pow,
    Nat.and_pow_two_sub_one_eq_mod, Nat.shiftLeft_eq]
  congr 1
  rw [← hsplit, Nat.mul_comm (2 ^ (64 - k)) (2 ^ k), Nat.mod_mul_right_div_self]

/-- When the aligned value stays inside the 64-bit address space, the
truncation in `ALIGN_TO` is vacuous and it is the usual round-up. -/
theorem ALIGN_TO_pow2_small (v k : Nat) (hk : k ≤ 64) (hv : v + 2 ^ k ≤ 2 ^ 64) :
    ALIGN_TO v (2 ^ k) = (v + (2 ^ k - 1)) / 2 ^ k * 2 ^ k := by
  have hkpos := Nat.two_pow_pos k
  rw [ALIGN_TO_pow2 v k hk, Nat.mod_eq_of_lt (by omega)]

/-- Aligning up never moves the value down (inside the address space). -/
theorem le_ALIGN_TO_pow2 (v k : Nat) (hk : k ≤ 64) (hv : v + 2 ^ k ≤ 2 ^ 64) :
    v ≤ ALIGN_TO v (2 ^ k) := by
  rw [ALIGN_TO_pow2_small v k hk hv]
  have hkpos := Nat.two_pow_pos k
  have h1 := Nat.lt_div_mul_add (a := v + (2 ^ k - 1)) hkpos
  omega

/-- Aligning up moves the value by less than the alignment. -/
theorem ALIGN_TO_pow2_lt (v k : Nat) (hk : k ≤ 64) (hv : v + 2 ^ k ≤ 2 ^ 64) :
    ALIGN_TO v (2 ^ k) < v + 2 ^ k := by
  rw [ALIGN_TO_pow2_small v k hk hv]
  have hkpos := Nat.two_pow_pos k
  have h1 := Nat.div_mul_le_self (v + (2 ^ k - 1)) (2 ^ k)
  omega

/-- The result of `ALIGN_TO` at a power-of-two alignment is always a
multiple of that alignment (for `k > 64` the mask is zero and so is
the result). -/
theorem ALIGN_TO_pow2_dvd (v k : Nat) : 2 ^ k ∣ ALIGN_TO v (2 ^ k) := by
  rcases le_or_lt k 64 with hk | hk
  · rw [ALIGN_TO_pow2 v k hk]
    exact dvd_mul_left (2 ^ k) _
  · have h64 : 2 ^ 64 ≤ 2 ^ k := Nat.pow_le_pow_right (by omega) (by omega)
    have hz : 2 ^ 64 - 2 ^ k = 0 := by omega
    unfold ALIGN_TO
    rw [hz, Nat.zero_mod, Nat.and_zero]
    exact dvd_zero _

/-! ## Linear allocator: exhaustion is sticky -/

/-- Once the linear head has passed the end of the buffer, every later
`allocate` whose sizes do not wrap the `size_t` head around fails (the
head keeps growing and never comes back). -/
theorem linear_run_exhausted (sizes : List Nat) (s : linear_state)
    (h : BUFFER_SIZE < s.head) (hnw : s.head + sizes.sum < 2 ^ 64) :
    ∀ r ∈ (linear_run s sizes).1, r = none := by
  induction sizes generalizing s with
  | nil => simp [linear_run]
  | cons sz rest ih =>
    have hsum : (sz :: rest).sum = sz + rest.sum := List.sum_cons
    have hmod : (s.head + sz) % 2 ^ 64 = s.head + sz :=
      Nat.mod_eq_of_lt (by omega)
    have hfail : allocate s sz = (none, ⟨s.head + sz⟩) := by
      unfold allocate
      rw [hmod, if_pos (by omega)]
    simp only [linear_run, hfail]
    intro r hr
    rw [List.mem_cons] at hr
    rcases hr with rfl | hr
    · rfl
    · exact ih ⟨s.head + sz⟩ (by simp; omega) (by simp; omega) r hr

/-- C3 fails as stated: `head += size` is `size_t` arithmetic, so with
`head = 1000` and `size = 2 ^ 64 - 5` the sum exceeds the capacity
mathematically, yet the head wraps to 995 and the call succeeds,
returning `&buffer[1000]` — all defined behavior (the head never
leaves the buffer, so no out-of-bounds pointer is formed). -/
theorem claim_C3_counterexample :
    BUFFER_SIZE < 1000 + (2 ^ 64 - 5) ∧
    (allocate ⟨1000⟩ (2 ^ 64 - 5)).1 = some 1000 ∧
    (allocate ⟨1000⟩ (2 ^ 64 - 5)).2.head = 995 := by
  decide

/-- C3 (amended): `allocate` fails exactly when the wrapped `size_t`
sum `(head + size) % 2 ^ 64` passes `BUFFER_SIZE`; the head is always
left at that wrapped sum (past the end on failure); and once the head
has passed the end, every subsequent call whose sizes do not wrap the
head around fails as well. -/
theorem claim_C3_amended (s : linear_state) (size : Nat) :
    ((allocate s size).1 = none ↔ BUFFER_SIZE < (s.head + size) % 2 ^ 64) ∧
    (allocate s size).2.head = (s.head + size) % 2 ^ 64 ∧
    (BUFFER_SIZE < s.head →
      ∀ sizes : List Nat, s.head + sizes.sum < 2 ^ 64 →
      ∀ r ∈ (linear_run s sizes).1, r = none) := by
  have hbase : ((allocate s size).1 = none ↔
      BUFFER_SIZE < (s.head + size) % 2 ^ 64) ∧
      (allocate s size).2.head = (s.head + size) % 2 ^ 64 := by
    unfold allocate
    by_cases h : BUFFER_SIZE < (s.head + size) % 2 ^ 64
    · rw [if_pos h]
      exact ⟨⟨fun _ => h, fun _ => rfl⟩, rfl⟩
    · rw [if_neg h]
      exact ⟨⟨fun hx => absurd hx (by simp), fun hx => absurd hx h⟩, rfl⟩
  exact ⟨hbase.1, hbase.2,
    fun h sizes hnw => linear_run_exhausted sizes s h hnw⟩

/-- Concrete instance of `claim_C3_amended`: a 1025-byte request on a
fresh linear allocator fails and leaves `head = 1025`, after which a
1-byte request also fails. -/
theorem claim_C3_amended_witness :
    (allocate ⟨0⟩ 1025).1 = none ∧
    (allocate ⟨0⟩ 1025).2.head = (0 + 1025) % 2 ^ 64 ∧
    (allocate ⟨1025⟩ 1).1 = none := by
  refine ⟨(claim_C3_amended ⟨0⟩ 1025).1.mpr (by decide),
    (claim_C3_amended ⟨0⟩ 1025).2.1, ?_⟩
  have h := (claim_C3_amended ⟨1025⟩ 1).2.2 (by decide) [1] (by decide)
  simp only [linear_run] at h
  exact h (allocate ⟨1025⟩ 1).1 (by simp)

/-! ## No mutation on failure -/

/-- C2 fails as stated: the claim quantifies over all four allocators,
but the linear allocator advances its head on a failing call, and a
failing oversized `arena_alloc` whose backing `malloc` succeeds
prepends a fresh block.  Shown here at concrete inputs: a full linear
allocator (`head = 1000`) asked for 100 bytes, and a one-block arena
asked for 1001 bytes. -/
theorem claim_C2_counterexample :
    ((allocate ⟨1000⟩ 100).1 = none ∧ (allocate ⟨1000⟩ 100).2 ≠ ⟨1000⟩) ∧
    (arena_alloc ⟨[⟨1024, 1000, 24⟩]⟩ 1001 1 none (some 2048) =
        .ok none ⟨[⟨3072, 2072, 2072⟩, ⟨1024, 1000, 24⟩]⟩ ∧
      (⟨[⟨3072, 2072, 2072⟩, ⟨1024, 1000, 24⟩]⟩ : arena_t) ≠
        ⟨[⟨1024, 1000, 24⟩]⟩) := by
  decide

/-- C2 (amended): the fixed buffer allocator and the block allocator
really do leave their state untouched on a failing allocation. -/
theorem claim_C2_amended (fba : fba_t) (size align : Nat)
    (ba : block_allocator_t) :
    ((fba_alloc_opt fba size align).1 = none →
      (fba_alloc_opt fba size align).2 = fba) ∧
    ((ba_alloc ba).1 = none → (ba_alloc ba).2 = ba) := by
  constructor
  · intro h
    unfold fba_alloc_opt at *
    by_cases hc : fba.buffer_end < ALIGN_TO fba.head align + size
    · simp only [hc, if_pos]
    · rw [if_neg hc] at h
      exact absurd h (by simp)
  · intro h
    unfold ba_alloc at *
    match hb : ba.blocks with
    | [] => simp
    | blk :: rest => simp [hb] at h

/-! ## Arena: backing-allocation failure and growth-on-failure -/

/-- C1 at its failing input: when the most recent block (here
`buffer_end = 1024`, `head = 1000`) lacks room for a 200-byte request
and the backing `malloc` for the replacement block fails, `arena.h`
line 70 calls `arena_block_alloc` on the null block pointer and the
process faults instead of returning `NULL`.  The lazy-first-block path
does check (`arena.h` line 62) and correctly returns `NULL`. -/
theorem claim_C1_eval :
    arena_alloc ⟨[⟨1024, 1000, 24⟩]⟩ 200 1 none none = .fault ∧
    arena_alloc ⟨[]⟩ 4 1 none none = .ok none ⟨[]⟩ := by
  decide

/-- Helper: a failing `arena_block_alloc` leaves the block unchanged. -/
theorem arena_block_alloc_of_fail (b : arena_block_t) (size align : Nat)
    (h : (arena_block_alloc b size align).1 = none) :
    arena_block_alloc b size align = (none, b) := by
  unfold arena_block_alloc at *
  by_cases hc : b.buffer_end < ALIGN_TO b.head align + size
  · rw [if_pos hc]
  · rw [if_neg hc] at h
    exact absurd h (by simp)

/-- C10: when the most recent block cannot serve the request, a
failing `arena_alloc` whose backing `malloc` succeeded at `addr` still
prepends exactly one freshly initialized block, which survives the
failure. -/
theorem claim_C10 (b : arena_block_t) (rest : List arena_block_t)
    (size align addr : Nat) (m1 : Option Nat) (a1 : arena_t)
    (hfront : (arena_block_alloc b size align).1 = none)
    (hfail : arena_alloc ⟨b :: rest⟩ size align m1 (some addr) = .ok none a1) :
    a1 = ⟨arena_block_init addr :: b :: rest⟩ := by
  have hb := arena_block_alloc_of_fail b size align hfront
  unfold arena_alloc arena_get_block arena_new_block at hfail
  simp only [hb] at hfail
  rcases h2 : arena_block_alloc (arena_block_init addr) size align with ⟨buf2, blk3⟩
  simp only [h2] at hfail
  cases hfail
  have h3 : blk3 = arena_block_init addr := by
    have := arena_block_alloc_of_fail (arena_block_init addr) size align (by rw [h2])
    rw [h2] at this
    exact (Prod.mk.injEq _ _ _ _).mp this |>.2
  simp [h3]

/-! ## Block allocator: free-range check, capacity, LIFO -/

/-- C9: `ba_free` silently ignores pointers strictly below `buffer` or
strictly above `buffer_end`, and pushes every pointer in the inclusive
range `[buffer, buffer_end]` — including the one-past-the-end address
itself — onto the front of the free list. -/
theorem claim_C9 (ba : block_allocator_t) (p : Nat) :
    ((p < ba.buffer ∨ ba.buffer_end < p) → ba_free ba p = ba) ∧
    (ba.buffer ≤ p → p ≤ ba.buffer_end →
      ba_free ba p = { ba with blocks := p :: ba.blocks }) := by
  constructor
  · intro h
    unfold ba_free
    rw [if_pos h]
  · intro h1 h2
    unfold ba_free
    rw [if_neg (by omega)]

/-- Concrete instance of `claim_C9`: out-of-range `5` is ignored, the
one-past-the-end address `20` is pushed. -/
theorem claim_C9_witness :
    ba_free ⟨10, 20, []⟩ 5 = ⟨10, 20, []⟩ ∧
    ba_free ⟨10, 20, []⟩ 20 = ⟨10, 20, [20]⟩ :=
  ⟨(claim_C9 ⟨10, 20, []⟩ 5).1 (by decide),
   (claim_C9 ⟨10, 20, []⟩ 20).2 (by decide) (by decide)⟩

/-- The `ba_init` loop threads exactly `count` cells. -/
theorem ba_init_list_length (buffer item_size count : Nat) :
    (ba_init_list buffer item_size count).length = count := by
  induction count with
  | zero => rfl
  | succ n ih => simp [ba_init_list, ih]

/-- Every cell threaded by the `ba_init` loop is `buffer + i * item_size`
for some slot index `i < count`. -/
theorem ba_init_list_mem (buffer item_size count p : Nat)
    (h : p ∈ ba_init_list buffer item_size count) :
    ∃ i, i < count ∧ p = buffer + i * item_size := by
  induction count with
  | zero => cases h
  | succ n ih =>
    rw [ba_init_list, List.mem_cons] at h
    rcases h with rfl | h
    · exact ⟨n, by omega, rfl⟩
    · obtain ⟨i, hi, rfl⟩ := ih h
      exact ⟨i, by omega, rfl⟩

/-- Popping `n ≤ |free list|` cells succeeds every time and just drops
the first `n` entries of the free list. -/
theorem ba_alloc_n_spec (n : Nat) (ba : block_allocator_t)
    (h : n ≤ ba.blocks.length) :
    (∀ r ∈ (ba_alloc_n ba n).1, r.isSome) ∧
    (ba_alloc_n ba n).2 = { ba with blocks := ba.blocks.drop n } := by
  induction n generalizing ba with
  | zero => simp [ba_alloc_n]
  | succ n ih =>
    match hb : ba.blocks with
    | [] =>
      rw [hb] at h
      simp at h
    | blk :: rest =>
      have hstep : ba_alloc ba = (some blk, { ba with blocks := rest }) := by
        unfold ba_alloc
        rw [hb]
      simp only [ba_alloc_n, hstep]
      have h2 : n ≤ rest.length := by
        rw [hb] at h
        simp at h
        omega
      obtain ⟨ih1, ih2⟩ := ih { ba with blocks := rest } (by simpa using h2)
      refine ⟨?_, ?_⟩
      · intro r hr
        rcases List.mem_cons.mp hr with rfl | hr
        · rfl
        · exact ih1 r hr
      · rw [ih2]
        simp [hb]

/-- C5: over a buffer of `item_size * K` bytes (with `item_size` at
least one link, per `ba_init`'s assert), the block allocator yields
exactly `K` successful allocations and the `K+1`-st fails; in general
the capacity is `buffer_size / item_size` and every threaded cell —
hence everything ever popped without intervening frees — lies wholly
inside the buffer, so remainder bytes are never handed out. -/
theorem claim_C5 (buffer item_size K : Nat) (h8 : 8 ≤ item_size) :
    (ba_init buffer (item_size * K) item_size).blocks.length = K ∧
    (∀ r ∈ (ba_alloc_n (ba_init buffer (item_size * K) item_size) K).1,
      r.isSome) ∧
    (ba_alloc (ba_alloc_n (ba_init buffer (item_size * K) item_size) K).2).1
      = none ∧
    (∀ buffer_size,
      (ba_init buffer buffer_size item_size).blocks.length
          = buffer_size / item_size ∧
      ∀ p ∈ (ba_init buffer buffer_size item_size).blocks,
        buffer ≤ p ∧ p + item_size ≤ buffer + buffer_size) := by
  have hpos : 0 < item_size := by omega
  have hlen : (ba_init buffer (item_size * K) item_size).blocks.length = K := by
    unfold ba_init
    rw [ba_init_list_length, Nat.mul_div_cancel_left K hpos]
  obtain ⟨hall, hfin⟩ :=
    ba_alloc_n_spec K (ba_init buffer (item_size * K) item_size) (by omega)
  refine ⟨hlen, hall, ?_, ?_⟩
  · rw [hfin]
    have hdrop : ((ba_init buffer (item_size * K) item_size).blocks.drop K) = [] := by
      apply List.drop_eq_nil_of_le
      omega
    unfold ba_alloc
    rw [hdrop]
  · intro buffer_size
    refine ⟨by unfold ba_init; rw [ba_init_list_length], ?_⟩
    intro p hp
    obtain ⟨i, hi, rfl⟩ := ba_init_list_mem buffer item_size _ p hp
    have h1 : i + 1 ≤ buffer_size / item_size := hi
    have h2 : (i + 1) * item_size ≤ buffer_size / item_size * item_size :=
      Nat.mul_le_mul_right item_size h1
    have h3 := Nat.div_mul_le_self buffer_size item_size
    have h4 : (i + 1) * item_size = i * item_size + item_size := by ring
    omega

/-- Concrete instance of `claim_C5`: 16-byte buffer, 8-byte items,
capacity 2, third allocation fails. -/
theorem claim_C5_witness :
    (ba_init 0 (8 * 2) 8).blocks.length = 2 ∧
    (ba_alloc (ba_alloc_n (ba_init 0 (8 * 2) 8) 2).2).1 = none :=
  ⟨(claim_C5 0 8 2 (by decide)).1, (claim_C5 0 8 2 (by decide)).2.2.1⟩

/-- C6: the free list is LIFO.  From any state whose free list only
holds in-range cells (true of every reachable state: `ba_init` threads
in-range cells and `ba_free` refuses out-of-range pointers), after
allocate `A`, allocate `B`, free `A`, the next allocate returns `A`
again and restores the state to what it was right after `B`. -/
theorem ba_alloc_some (ba : block_allocator_t) (A : Nat)
    (ba1 : block_allocator_t) (h : ba_alloc ba = (some A, ba1)) :
    ba.blocks = A :: ba1.blocks ∧ ba1.buffer = ba.buffer ∧
      ba1.buffer_end = ba.buffer_end := by
  match hb : ba.blocks with
  | [] =>
    unfold ba_alloc at h
    rw [hb] at h
    cases h
  | x :: t =>
    unfold ba_alloc at h
    rw [hb] at h
    injection h with h1 h2
    injection h1 with h1
    subst h2
    exact ⟨by rw [h1], rfl, rfl⟩

theorem claim_C6 (ba : block_allocator_t)
    (hwf : ∀ p ∈ ba.blocks, ba.buffer ≤ p ∧ p ≤ ba.buffer_end)
    (A B : Nat) (ba1 ba2 : block_allocator_t)
    (hA : ba_alloc ba = (some A, ba1))
    (hB : ba_alloc ba1 = (some B, ba2)) :
    ba_alloc (ba_free ba2 A) = (some A, ba2) := by
  obtain ⟨hA1, hA2, hA3⟩ := ba_alloc_some ba A ba1 hA
  obtain ⟨hB1, hB2, hB3⟩ := ba_alloc_some ba1 B ba2 hB
  have hrange := hwf A (by rw [hA1]; exact List.mem_cons_self _ _)
  have hfree : ba_free ba2 A = { ba2 with blocks := A :: ba2.blocks } := by
    unfold ba_free
    rw [if_neg (by rw [hB2, hA2, hB3, hA3]; omega)]
  rw [hfree]
  unfold ba_alloc
  rfl

/-- Concrete instance of `claim_C6` — the spec's scenario: a 4096-byte
buffer with 36-byte items gives 113 slots; `item0 = 4032`,
`item1 = 3996`; freeing `item0` and allocating again returns `4032`. -/
theorem claim_C6_witness :
    (ba_init 0 4096 36).blocks.length = 113 ∧
    ba_alloc (ba_free (ba_alloc (ba_alloc (ba_init 0 4096 36)).2).2 4032)
      = (some 4032, (ba_alloc (ba_alloc (ba_init 0 4096 36)).2).2) :=
  ⟨by decide,
   claim_C6 (ba_init 0 4096 36) (by decide) 4032 3996
     (ba_alloc (ba_init 0 4096 36)).2
     (ba_alloc (ba_alloc (ba_init 0 4096 36)).2).2
     (by decide) (by decide)⟩

/-! ## Alignment of returned pointers -/

/-- Helper: a successful `arena_block_alloc` returns the aligned head. -/
theorem arena_block_alloc_of_some (b : arena_block_t) (size align p : Nat)
    (b1 : arena_block_t) (h : arena_block_alloc b size align = (some p, b1)) :
    p = ALIGN_TO b.head align := by
  unfold arena_block_alloc at h
  by_cases hc : b.buffer_end < ALIGN_TO b.head align + size
  · rw [if_pos hc] at h
    cases h
  · rw [if_neg hc] at h
    injection h with h1 _
    injection h1 with h1
    exact h1.symm

/-- C7: for every power-of-two alignment, a successful FBA or arena
allocation returns an address that is a multiple of the alignment. -/
theorem claim_C7 (fba : fba_t) (size k p : Nat) (f1 : fba_t)
    (a : arena_t) (asize ak q : Nat) (m1 m2 : Option Nat) (a1 : arena_t) :
    (fba_alloc_opt fba size (2 ^ k) = (some p, f1) → 2 ^ k ∣ p) ∧
    (arena_alloc a asize (2 ^ ak) m1 m2 = .ok (some q) a1 → 2 ^ ak ∣ q) := by
  constructor
  · intro h
    unfold fba_alloc_opt at h
    by_cases hc : fba.buffer_end < ALIGN_TO fba.head (2 ^ k) + size
    · rw [if_pos hc] at h
      cases h
    · rw [if_neg hc] at h
      injection h with h1 _
      injection h1 with h1
      rw [← h1]
      exact ALIGN_TO_pow2_dvd _ k
  · intro h
    unfold arena_alloc at h
    split at h
    · injection h with h1 h2
      cases h1
    · rename_i blk a1g heq1
      split at h
      · rename_i buf blk1 heq2
        injection h with h1 h2
        injection h1 with h1
        rw [← h1, arena_block_alloc_of_some _ _ _ _ _ heq2]
        exact ALIGN_TO_pow2_dvd _ ak
      · rename_i blk1 heq2
        split at h
        · cases h
        · rename_i blk2 a2 heq3
          split at h
          rename_i ob2 blk3 heq4
          injection h with h1 h2
          subst h1
          rw [arena_block_alloc_of_some _ _ _ _ _ heq4]
          exact ALIGN_TO_pow2_dvd _ ak

/-- Concrete instance of `claim_C7`: an FBA allocation at alignment 4
returns a multiple of 4, and an arena allocation at alignment 8 on a
fresh block at address 0 returns 24, a multiple of 8. -/
theorem claim_C7_witness : (2 ^ 2 ∣ 100) ∧ (2 ^ 3 ∣ 24) :=
  ⟨(claim_C7 (fba_init 100 924) 8 2 100 ⟨100, 1024, 108⟩
      ⟨[]⟩ 4 3 24 (some 0) none ⟨[⟨1024, 28, 24⟩]⟩).1 (by decide),
   (claim_C7 (fba_init 100 924) 8 2 100 ⟨100, 1024, 108⟩
      ⟨[]⟩ 4 3 24 (some 0) none ⟨[⟨1024, 28, 24⟩]⟩).2 (by decide)⟩

/-- Concrete instance of `claim_C2_amended`: a 100-byte request on a
10-byte FBA fails without touching the state, and `ba_alloc` on an
empty free list fails without touching the state. -/
theorem claim_C2_amended_witness :
    (fba_alloc_opt ⟨0, 10, 0⟩ 100 1).2 = ⟨0, 10, 0⟩ ∧
    (ba_alloc ⟨0, 0, []⟩).2 = ⟨0, 0, []⟩ :=
  ⟨(claim_C2_amended ⟨0, 10, 0⟩ 100 1 ⟨0, 0, []⟩).1 (by decide),
   (claim_C2_amended ⟨0, 10, 0⟩ 100 1 ⟨0, 0, []⟩).2 (by decide)⟩

/-- Concrete instance of `claim_C10`: a one-block arena that cannot
serve a 1001-byte request, with the backing `malloc` succeeding at
`2048`, ends up with exactly the fresh empty block prepended. -/
theorem claim_C10_witness :
    (⟨[⟨3072, 2072, 2072⟩, ⟨1024, 1000, 24⟩]⟩ : arena_t) =
      ⟨arena_block_init 2048 :: ⟨1024, 1000, 24⟩ :: []⟩ :=
  claim_C10 ⟨1024, 1000, 24⟩ [] 1001 1 2048 none
    ⟨[⟨3072, 2072, 2072⟩, ⟨1024, 1000, 24⟩]⟩ (by decide) (by decide)

/-! ## Arena oversize rejection -/

/-- Helper: on any block with the `arena_block_init` shape, a request
larger than the usable capacity (`ARENA_BLOCK_SIZE` minus the header)
fails, whatever the (power-of-two) alignment. -/
theorem arena_block_alloc_oversize (b : arena_block_t) (size k : Nat)
    (hk : k ≤ 63) (hinv : arena_block_inv b)
    (hsize : ARENA_BLOCK_SIZE - ARENA_HEADER_SIZE < size) :
    arena_block_alloc b size (2 ^ k) = (none, b) := by
  obtain ⟨hgeom, hh1, hh2, hlo, hhi⟩ := hinv
  have hpow : (2:Nat) ^ k ≤ 2 ^ 63 := Nat.pow_le_pow_right (by omega) hk
  have hof : b.head + 2 ^ k ≤ 2 ^ 64 := by
    have h2 : (2:Nat) ^ 63 + 2 ^ 63 = 2 ^ 64 := by norm_num
    omega
  have halign := le_ALIGN_TO_pow2 b.head k (by omega) hof
  unfold arena_block_alloc
  rw [if_pos (by
    simp only [ARENA_BLOCK_SIZE, ARENA_HEADER_SIZE] at hgeom hsize
    omega)]

/-- Helper: a freshly `malloc`ed and initialized block satisfies the
block invariant. -/
theorem arena_block_init_inv (addr : Nat)
    (h : addr + ARENA_BLOCK_SIZE ≤ 2 ^ 63) :
    arena_block_inv (arena_block_init addr) := by
  unfold arena_block_inv arena_block_init
  dsimp
  unfold ARENA_BLOCK_SIZE ARENA_HEADER_SIZE at *
  omega

/-- C4: a request whose size exceeds one block's usable capacity
(`ARENA_BLOCK_SIZE - ARENA_HEADER_SIZE = 1000` bytes) fails on every
well-formed arena — including the empty one right after `clear` — as
long as the backing allocation for the single retry block succeeds
(`some addr2`; when it fails the grow path faults, see C1).  The arena
never creates an oversized block: at most two standard
`arena_block_init` blocks are prepended (the lazily created first
block and the one retry block), and the request still returns `NULL`. -/
theorem claim_C4 (a : arena_t) (size k : Nat) (m1 : Option Nat) (addr2 : Nat)
    (hsize : ARENA_BLOCK_SIZE - ARENA_HEADER_SIZE < size)
    (hk : k ≤ 63)
    (hinv : ∀ b ∈ a.blocks, arena_block_inv b)
    (hm1 : ∀ addr ∈ m1, addr + ARENA_BLOCK_SIZE ≤ 2 ^ 63)
    (hm2 : addr2 + ARENA_BLOCK_SIZE ≤ 2 ^ 63) :
    ∃ pre a1, arena_alloc a size (2 ^ k) m1 (some addr2) = .ok none a1 ∧
      a1.blocks = pre ++ a.blocks ∧ pre.length ≤ 2 ∧
      ∀ b ∈ pre, ∃ ad, b = arena_block_init ad := by
  have hfresh2 := arena_block_alloc_oversize (arena_block_init addr2) size k hk
    (arena_block_init_inv addr2 hm2) hsize
  match hblocks : a.blocks with
  | [] =>
    match m1 with
    | none =>
      refine ⟨[], a, ?_, by rw [hblocks]; rfl, by simp, by simp⟩
      unfold arena_alloc arena_get_block arena_new_block
      rw [hblocks]
    | some addr =>
      have hb1 := arena_block_alloc_oversize (arena_block_init addr) size k hk
        (arena_block_init_inv addr (hm1 addr rfl)) hsize
      refine ⟨[arena_block_init addr2, arena_block_init addr],
        ⟨[arena_block_init addr2, arena_block_init addr]⟩, ?_, by simp, by simp, ?_⟩
      · unfold arena_alloc arena_get_block arena_new_block
        rw [hblocks]
        simp only [hb1, hfresh2, hblocks]
        rfl
      · intro b hb
        rcases List.mem_cons.mp hb with rfl | hb
        · exact ⟨addr2, rfl⟩
        · rcases List.mem_cons.mp hb with rfl | hb
          · exact ⟨addr, rfl⟩
          · cases hb
  | bold :: rest =>
    have hb0 := arena_block_alloc_oversize bold size k hk
      (hinv bold (by rw [hblocks]; exact List.mem_cons_self _ _)) hsize
    refine ⟨[arena_block_init addr2], ⟨arena_block_init addr2 :: bold :: rest⟩,
      ?_, by simp, by simp, ?_⟩
    · unfold arena_alloc arena_get_block arena_new_block
      rw [hblocks]
      simp only [hb0, hfresh2]
      rw [hblocks]
      rfl
    · intro b hb
      rcases List.mem_cons.mp hb with rfl | hb
      · exact ⟨addr2, rfl⟩
      · cases hb

/-- Concrete instance of `claim_C4`: a 1001-byte request on the empty
arena (with the retry `malloc` succeeding at address 0) fails and
leaves only standard-size fresh blocks behind. -/
theorem claim_C4_witness :
    ∃ pre a1, arena_alloc ⟨[]⟩ 1001 (2 ^ 0) none (some 0) = .ok none a1 ∧
      a1.blocks = pre ++ (⟨[]⟩ : arena_t).blocks ∧ pre.length ≤ 2 ∧
      ∀ b ∈ pre, ∃ ad, b = arena_block_init ad :=
  claim_C4 ⟨[]⟩ 1001 0 none 0 (by decide) (by decide)
    (by intro b hb; cases hb) (by intro addr h; cases h) (by decide)

/-! ## Monotonicity and non-overlap (C8) -/

/-- Everything in a chained range list starts at or after `lo`. -/
theorem Chained.le_of_mem {lo hi : Nat} {l : List (Nat × Nat)}
    (h : Chained lo l hi) : ∀ x ∈ l, lo ≤ x.1 := by
  induction l generalizing lo with
  | nil =>
    intro x hx
    cases hx
  | cons y rest ih =>
    obtain ⟨p, size⟩ := y
    obtain ⟨h1, h2⟩ := h
    intro x hx
    rcases List.mem_cons.mp hx with rfl | hx
    · exact h1
    · exact le_trans (le_trans h1 (Nat.le_add_right p size)) (ih h2 x hx)

/-- A chained range list is pairwise ordered: every earlier range ends
no later than a later one begins (hence no two ranges overlap, and
pointers strictly increase as soon as the earlier size is positive). -/
theorem Chained.pairwise_ordered {lo hi : Nat} {l : List (Nat × Nat)}
    (h : Chained lo l hi) : l.Pairwise (fun x y => x.1 + x.2 ≤ y.1) := by
  induction l generalizing lo with
  | nil => exact List.Pairwise.nil
  | cons y rest ih =>
    obtain ⟨p, size⟩ := y
    obtain ⟨h1, h2⟩ := h
    exact List.Pairwise.cons (fun x hx => Chained.le_of_mem h2 x hx) (ih h2)

/-- An all-successful `linear_run` whose sizes do not wrap the
`size_t` head around produces chained ranges: each allocation starts
at the old head and pushes the head to its end. -/
theorem linear_run_chained (sizes : List Nat) (s : linear_state)
    (hnw : s.head + sizes.sum < 2 ^ 64)
    (hok : ∀ r ∈ (linear_run s sizes).1, r.isSome) :
    Chained s.head
      (((linear_run s sizes).1.map (fun r => r.getD 0)).zip sizes)
      (linear_run s sizes).2.head := by
  induction sizes generalizing s with
  | nil => simp [linear_run, Chained]
  | cons sz rest ih =>
    have hsum : (sz :: rest).sum = sz + rest.sum := List.sum_cons
    have hmod : (s.head + sz) % 2 ^ 64 = s.head + sz :=
      Nat.mod_eq_of_lt (by omega)
    by_cases hc : BUFFER_SIZE < s.head + sz
    · exfalso
      have h1 : allocate s sz = (none, ⟨s.head + sz⟩) := by
        unfold allocate
        rw [hmod, if_pos hc]
      have h2 := hok none (by
        simp only [linear_run, h1]
        exact List.mem_cons_self _ _)
      simp at h2
    · have h1 : allocate s sz = (some s.head, ⟨s.head + sz⟩) := by
        unfold allocate
        rw [hmod, if_neg hc]
      have hok2 : ∀ r ∈ (linear_run ⟨s.head + sz⟩ rest).1, r.isSome := by
        intro r hr
        exact hok r (by
          simp only [linear_run, h1]
          exact List.mem_cons_of_mem _ hr)
      have ihx := ih ⟨s.head + sz⟩ (by simp; omega) hok2
      simp only [linear_run, h1]
      exact ⟨le_refl _, ihx⟩

/-- An all-successful `fba_run` (power-of-two alignments, buffer inside
the address space, head inside the buffer) produces chained ranges
starting at the old head. -/
theorem fba_run_chained (reqs : List (Nat × Nat)) (fba : fba_t)
    (hh : fba.head ≤ fba.buffer_end) (hbd : fba.buffer_end ≤ 2 ^ 63)
    (hal : ∀ r ∈ reqs, ∃ k, k ≤ 63 ∧ r.2 = 2 ^ k)
    (hok : ∀ r ∈ (fba_run fba reqs).1, r.isSome) :
    Chained fba.head
      (((fba_run fba reqs).1.map (fun r => r.getD 0)).zip
        (reqs.map (fun r => r.1)))
      (fba_run fba reqs).2.head := by
  induction reqs generalizing fba with
  | nil => simp [fba_run, Chained]
  | cons req rest ih =>
    obtain ⟨sz, al⟩ := req
    obtain ⟨k, hk, hal1⟩ := hal (sz, al) (List.mem_cons_self _ _)
    have hal2 : al = 2 ^ k := hal1
    subst hal2
    have hof : fba.head + 2 ^ k ≤ 2 ^ 64 := by
      have h1 : (2:Nat) ^ k ≤ 2 ^ 63 := Nat.pow_le_pow_right (by omega) hk
      have h2 : (2:Nat) ^ 63 + 2 ^ 63 = 2 ^ 64 := by norm_num
      omega
    have halign := le_ALIGN_TO_pow2 fba.head k (by omega) hof
    by_cases hc : fba.buffer_end < ALIGN_TO fba.head (2 ^ k) + sz
    · exfalso
      have h1 : fba_alloc_opt fba sz (2 ^ k) = (none, fba) := by
        unfold fba_alloc_opt
        rw [if_pos hc]
      have h2 := hok none (by
        simp only [fba_run, h1]
        exact List.mem_cons_self _ _)
      simp at h2
    · have h1 : fba_alloc_opt fba sz (2 ^ k) =
          (some (ALIGN_TO fba.head (2 ^ k)),
           { fba with head := ALIGN_TO fba.head (2 ^ k) + sz }) := by
        unfold fba_alloc_opt
        rw [if_neg hc]
      have hok2 : ∀ r ∈
          (fba_run { fba with head := ALIGN_TO fba.head (2 ^ k) + sz } rest).1,
          r.isSome := by
        intro r hr
        exact hok r (by
          simp only [fba_run, h1]
          exact List.mem_cons_of_mem _ hr)
      have ihx := ih { fba with head := ALIGN_TO fba.head (2 ^ k) + sz }
        (by dsimp; omega) (by dsimp; omega)
        (fun r hr => hal r (List.mem_cons_of_mem _ hr)) hok2
      simp only [fba_run, h1]
      exact ⟨halign, ihx⟩

/-- `region_disjoint` is symmetric. -/
theorem region_disjoint_symm (e1 e2 : Nat) (h : region_disjoint e1 e2) :
    region_disjoint e2 e1 :=
  Or.symm h

/-- A real block region is not disjoint from itself. -/
theorem region_disjoint_irrefl (e : Nat) (he : ARENA_BLOCK_SIZE ≤ e) :
    ¬ region_disjoint e e := by
  unfold region_disjoint ARENA_BLOCK_SIZE at *
  omega

/-- The ends of the arena's blocks together with the regions the
backing allocator may still hand out are pairwise disjoint. -/
theorem universe_pairwise (a : arena_t)
    (reqs : List (Nat × Nat × Option Nat × Option Nat))
    (hinv : arena_inv a) (hfresh : oracle_fresh a reqs) :
    (block_ends a ++
      (req_addrs reqs).map (fun ad => ad + ARENA_BLOCK_SIZE)).Pairwise
      region_disjoint := by
  rw [List.pairwise_append]
  refine ⟨?_, ?_, ?_⟩
  · unfold block_ends
    rw [List.pairwise_map]
    exact hinv.2
  · rw [List.pairwise_map]
    exact hfresh.2
  · intro e he ad had
    unfold block_ends at he
    rw [List.mem_map] at he had
    obtain ⟨b, hb, rfl⟩ := he
    obtain ⟨addr, haddr, rfl⟩ := had
    exact (hfresh.1 addr haddr).2 b hb

/-- Shape of a successful `arena_get_block`. -/
theorem arena_get_block_some (a : arena_t) (m : Option Nat)
    (blk : arena_block_t) (a1 : arena_t)
    (h : arena_get_block a m = (some blk, a1)) :
    (a1 = a ∧ a.blocks = blk :: a.blocks.tail) ∨
    (a.blocks = [] ∧ ∃ addr, m = some addr ∧ blk = arena_block_init addr ∧
      a1 = ⟨[blk]⟩) := by
  unfold arena_get_block at h
  match hb : a.blocks with
  | x :: t =>
    rw [hb] at h
    injection h with h1 h2
    injection h1 with h1
    left
    refine ⟨h2.symm, ?_⟩
    rw [h1]
    rfl
  | [] =>
    rw [hb] at h
    unfold arena_new_block at h
    match m with
    | none => cases h
    | some addr =>
      injection h with h1 h2
      injection h1 with h1
      right
      refine ⟨rfl, addr, rfl, h1.symm, ?_⟩
      rw [← h2, h1]
      simp [hb]

/-- Shape of a successful `arena_new_block`. -/
theorem arena_new_block_some (a : arena_t) (m : Option Nat)
    (blk : arena_block_t) (a1 : arena_t)
    (h : arena_new_block a m = (some blk, a1)) :
    ∃ addr, m = some addr ∧ blk = arena_block_init addr ∧
      a1 = ⟨blk :: a.blocks⟩ := by
  unfold arena_new_block at h
  match m with
  | none => cases h
  | some addr =>
    injection h with h1 h2
    injection h1 with h1
    refine ⟨addr, rfl, h1.symm, ?_⟩
    rw [← h2, h1]

/-- Facts about a successful bump allocation in a well-formed block. -/
theorem arena_block_alloc_success (b : arena_block_t) (size k p : Nat)
    (b1 : arena_block_t) (hk : k ≤ 63) (hinv : arena_block_inv b)
    (h : arena_block_alloc b size (2 ^ k) = (some p, b1)) :
    b.head ≤ p ∧ p + size ≤ b.buffer_end ∧
    b1 = { b with head := p + size } := by
  obtain ⟨hgeom, hh1, hh2, hlo, hhi⟩ := hinv
  have hof : b.head + 2 ^ k ≤ 2 ^ 64 := by
    have h1 : (2:Nat) ^ k ≤ 2 ^ 63 := Nat.pow_le_pow_right (by omega) hk
    have h2 : (2:Nat) ^ 63 + 2 ^ 63 = 2 ^ 64 := by norm_num
    omega
  have halign := le_ALIGN_TO_pow2 b.head k (by omega) hof
  unfold arena_block_alloc at h
  by_cases hc : b.buffer_end < ALIGN_TO b.head (2 ^ k) + size
  · rw [if_pos hc] at h
    cases h
  · rw [if_neg hc] at h
    injection h with h1 h2
    injection h1 with h1
    subst h1
    exact ⟨halign, by omega, h2.symm⟩

/-- Moving a well-formed block's head forward (staying in the buffer)
preserves the block invariant. -/
theorem arena_block_inv_bump (b : arena_block_t) (p size : Nat)
    (hinv : arena_block_inv b) (hp : b.head ≤ p)
    (hps : p + size ≤ b.buffer_end) :
    arena_block_inv { b with head := p + size } := by
  obtain ⟨hgeom, hh1, hh2, hlo, hhi⟩ := hinv
  unfold arena_block_inv
  dsimp
  exact ⟨hgeom, by omega, by omega, hlo, hhi⟩

/-- Everything one successful `arena_alloc` call guarantees, given a
well-formed arena and `malloc`-like oracles: the new arena is
well-formed; the returned range `[p, p + size)` sits inside the buffer
of the new front block `b1`, which now has `head = p + size`; every
old block persists (same `buffer_end`) with its head not decreased;
any old block sharing `b1`'s identity had its head at or below `p`;
and every block of the new arena is either an old block or freshly
carved out of an oracle address. -/
theorem arena_alloc_step (a : arena_t) (size k : Nat) (m1 m2 : Option Nat)
    (p : Nat) (b1 : arena_block_t) (rest1 : List arena_block_t)
    (hk : k ≤ 63)
    (hinv : arena_inv a)
    (hm : ∀ addr, m1 = some addr ∨ m2 = some addr →
      addr + ARENA_BLOCK_SIZE ≤ 2 ^ 63 ∧
      ∀ b ∈ a.blocks, region_disjoint b.buffer_end (addr + ARENA_BLOCK_SIZE))
    (hmm : ∀ ad1 ad2, m1 = some ad1 → m2 = some ad2 →
      region_disjoint (ad1 + ARENA_BLOCK_SIZE) (ad2 + ARENA_BLOCK_SIZE))
    (h : arena_alloc a size (2 ^ k) m1 m2 = .ok (some p) ⟨b1 :: rest1⟩) :
    arena_inv ⟨b1 :: rest1⟩ ∧
    b1.head = p + size ∧
    p + size ≤ b1.buffer_end ∧
    b1.buffer_end - (ARENA_BLOCK_SIZE - ARENA_HEADER_SIZE) ≤ p ∧
    (∀ b ∈ a.blocks, ∃ b2 ∈ b1 :: rest1,
      b2.buffer_end = b.buffer_end ∧ b.head ≤ b2.head) ∧
    (∀ b ∈ a.blocks, b.buffer_end = b1.buffer_end → b.head ≤ p) ∧
    (∀ e ∈ block_ends ⟨b1 :: rest1⟩, e ∈ block_ends a ∨
      ∃ addr, (m1 = some addr ∨ m2 = some addr) ∧
        e = addr + ARENA_BLOCK_SIZE) := by
  unfold arena_alloc at h
  split at h
  · injection h with h1 h2
    cases h1
  · rename_i blk a1g heq1
    split at h
    · -- the most recent block had room
      rename_i buf blk1 heq2
      injection h with h1 h2
      injection h1 with h1
      subst h1
      injection h2 with h2
      injection h2 with h2a h2b
      rcases arena_get_block_some a m1 blk a1g heq1 with
        ⟨ha1, hfront⟩ | ⟨hempty, addr, hm1eq, hblkdef, ha1⟩
      · -- the block was the existing front block
        have hblkinv : arena_block_inv blk :=
          hinv.1 blk (by rw [hfront]; exact List.mem_cons_self _ _)
        obtain ⟨hle, hup, hblk1⟩ :=
          arena_block_alloc_success blk size k buf blk1 hk hblkinv heq2
        have hb1 : b1 = { blk with head := buf + size } := by
          rw [← h2a, hblk1]
        have hrest : rest1 = a.blocks.tail := by
          rw [← h2b, ha1]
        subst hb1
        subst hrest
        obtain ⟨hgeom, hbh1, hbh2, hblo, hbhi⟩ := hblkinv
        have hpair := hinv.2
        rw [hfront] at hpair
        refine ⟨⟨?_, ?_⟩, rfl, hup, ?_, ?_, ?_, ?_⟩
        · intro b hb
          rcases List.mem_cons.mp hb with rfl | hb
          · exact arena_block_inv_bump blk buf size
              ⟨hgeom, hbh1, hbh2, hblo, hbhi⟩ hle hup
          · exact hinv.1 b (by rw [hfront]; exact List.mem_cons_of_mem _ hb)
        · refine List.Pairwise.cons ?_ (List.pairwise_cons.mp hpair).2
          intro y hy
          exact (List.pairwise_cons.mp hpair).1 y hy
        · dsimp
          omega
        · intro b hb
          rw [hfront] at hb
          rcases List.mem_cons.mp hb with rfl | hb
          · exact ⟨{ b with head := buf + size }, List.mem_cons_self _ _,
              rfl, by dsimp; omega⟩
          · exact ⟨b, List.mem_cons_of_mem _ hb, rfl, le_refl _⟩
        · intro b hb hbe
          rw [hfront] at hb
          rcases List.mem_cons.mp hb with rfl | hb
          · exact hle
          · exfalso
            have hd := (List.pairwise_cons.mp hpair).1 b hb
            rw [hbe] at hd
            exact region_disjoint_irrefl _ hblo hd
        · intro e he
          unfold block_ends at he ⊢
          rcases List.mem_cons.mp he with rfl | he
          · left
            rw [hfront]
            exact List.mem_cons_self _ _
          · left
            rw [hfront]
            rcases List.mem_map.mp he with ⟨b, hb, rfl⟩
            exact List.mem_cons_of_mem _
              (List.mem_map.mpr ⟨b, hb, rfl⟩)
      · -- the block was lazily created from `m1`
        have hbound := (hm addr (Or.inl hm1eq)).1
        have hblkinv : arena_block_inv blk := by
          rw [hblkdef]
          exact arena_block_init_inv addr hbound
        obtain ⟨hle, hup, hblk1⟩ :=
          arena_block_alloc_success blk size k buf blk1 hk hblkinv heq2
        have hb1 : b1 = { blk with head := buf + size } := by
          rw [← h2a, hblk1]
        have hrest : rest1 = [] := by
          rw [← h2b, ha1]
          rfl
        subst hb1
        subst hrest
        obtain ⟨hgeom, hbh1, hbh2, hblo, hbhi⟩ := hblkinv
        refine ⟨⟨?_, ?_⟩, rfl, hup, ?_, ?_, ?_, ?_⟩
        · intro b hb
          rcases List.mem_cons.mp hb with rfl | hb
          · exact arena_block_inv_bump blk buf size
              ⟨hgeom, hbh1, hbh2, hblo, hbhi⟩ hle hup
          · cases hb
        · exact List.pairwise_singleton _ _
        · dsimp
          omega
        · intro b hb
          rw [hempty] at hb
          cases hb
        · intro b hb
          rw [hempty] at hb
          cases hb
        · intro e he
          unfold block_ends at he
          rcases List.mem_cons.mp he with rfl | he
          · right
            refine ⟨addr, Or.inl hm1eq, ?_⟩
            dsimp
            rw [hblkdef]
            rfl
          · cases he
    · -- the most recent block lacked room: grow and retry
      rename_i blk1f heq2
      split at h
      · cases h
      · rename_i blk2 a2 heq3
        split at h
        rename_i ob2 blk3 heq4
        injection h with h1 h2
        subst h1
        injection h2 with h2
        injection h2 with h2a h2b
        obtain ⟨addr2, hm2eq, hblk2, ha2⟩ :=
          arena_new_block_some a1g m2 blk2 a2 heq3
        obtain ⟨hbound2, hdisj2⟩ := hm addr2 (Or.inr hm2eq)
        have hblk2inv : arena_block_inv blk2 := by
          rw [hblk2]
          exact arena_block_init_inv addr2 hbound2
        obtain ⟨hle2, hup2, hblk3⟩ :=
          arena_block_alloc_success blk2 size k p blk3 hk hblk2inv heq4
        have hb1 : b1 = { blk2 with head := p + size } := by
          rw [← h2a, hblk3]
        have hrest : rest1 = a1g.blocks := by
          rw [← h2b, ha2]
          rfl
        subst hb1
        subst hrest
        obtain ⟨hgeom2, hb2h1, hb2h2, hb2lo, hb2hi⟩ := hblk2inv
        have hb1end : ({ blk2 with head := p + size } : arena_block_t).buffer_end
            = addr2 + ARENA_BLOCK_SIZE := by
          dsimp
          rw [hblk2]
          rfl
        rcases arena_get_block_some a m1 blk a1g heq1 with
          ⟨ha1, hfront⟩ | ⟨hempty, addr1, hm1eq, hblkdef, ha1⟩
        · -- the failing front block already existed
          subst ha1
          refine ⟨⟨?_, ?_⟩, rfl, hup2, ?_, ?_, ?_, ?_⟩
          · intro b hb
            rcases List.mem_cons.mp hb with rfl | hb
            · exact arena_block_inv_bump blk2 p size
                ⟨hgeom2, hb2h1, hb2h2, hb2lo, hb2hi⟩ hle2 hup2
            · exact hinv.1 b hb
          · refine List.Pairwise.cons ?_ hinv.2
            intro y hy
            rw [hb1end]
            exact region_disjoint_symm _ _ (hdisj2 y hy)
          · dsimp
            omega
          · intro b hb
            exact ⟨b, List.mem_cons_of_mem _ hb, rfl, le_refl _⟩
          · intro b hb hbe
            exfalso
            have hd := hdisj2 b hb
            rw [hbe, hb1end] at hd
            exact region_disjoint_irrefl _ (Nat.le_add_left _ _) hd
          · intro e he
            unfold block_ends at he ⊢
            rcases List.mem_cons.mp he with rfl | he
            · right
              exact ⟨addr2, Or.inr hm2eq, hb1end⟩
            · left
              exact he
        · -- the failing front block was itself lazily created from `m1`
          have hbound1 := (hm addr1 (Or.inl hm1eq)).1
          have hblkinv : arena_block_inv blk := by
            rw [hblkdef]
            exact arena_block_init_inv addr1 hbound1
          have hrest2 : a1g.blocks = [blk] := by
            rw [ha1]
          rw [hrest2]
          refine ⟨⟨?_, ?_⟩, rfl, hup2, ?_, ?_, ?_, ?_⟩
          · intro b hb
            rcases List.mem_cons.mp hb with rfl | hb
            · exact arena_block_inv_bump blk2 p size
                ⟨hgeom2, hb2h1, hb2h2, hb2lo, hb2hi⟩ hle2 hup2
            · rcases List.mem_cons.mp hb with rfl | hb
              · exact hblkinv
              · cases hb
          · refine List.Pairwise.cons ?_ (List.pairwise_singleton _ _)
            intro y hy
            rcases List.mem_cons.mp hy with rfl | hy
            · rw [hb1end, hblkdef]
              exact region_disjoint_symm _ _
                (hmm addr1 addr2 hm1eq hm2eq)
            · cases hy
          · dsimp
            omega
          · intro b hb
            rw [hempty] at hb
            cases hb
          · intro b hb
            rw [hempty] at hb
            cases hb
          · intro e he
            unfold block_ends at he
            rcases List.mem_cons.mp he with rfl | he
            · right
              exact ⟨addr2, Or.inr hm2eq, hb1end⟩
            · rcases List.mem_cons.mp he with rfl | he
              · right
                refine ⟨addr1, Or.inl hm1eq, ?_⟩
                rw [hblkdef]
                rfl
              · cases he

/-- Main invariant of an all-successful arena allocation trace: the
final arena is well-formed, old blocks persist with non-decreasing
heads, every recorded allocation `(p, size, e)` lies in the buffer of
its serving block (identified by `e`), and the records are pairwise
ordered within a block and range-disjoint across the whole trace. -/
theorem arena_trace_spec (a : arena_t)
    (reqs : List (Nat × Nat × Option Nat × Option Nat))
    (out : List (Nat × Nat × Nat)) (a2 : arena_t)
    (tr : ArenaTrace a reqs out a2)
    (hinv : arena_inv a)
    (hal : aligns_pow2 reqs)
    (hfresh : oracle_fresh a reqs) :
    arena_inv a2 ∧
    (∀ b ∈ a.blocks, ∃ b2 ∈ a2.blocks,
      b2.buffer_end = b.buffer_end ∧ b.head ≤ b2.head) ∧
    (∀ x ∈ out,
      ARENA_BLOCK_SIZE ≤ x.2.2 ∧
      x.2.2 - (ARENA_BLOCK_SIZE - ARENA_HEADER_SIZE) ≤ x.1 ∧
      x.1 + x.2.1 ≤ x.2.2 ∧
      (x.2.2 ∈ block_ends a ∨
        ∃ addr ∈ req_addrs reqs, x.2.2 = addr + ARENA_BLOCK_SIZE) ∧
      (∀ b ∈ a.blocks, b.buffer_end = x.2.2 → b.head ≤ x.1)) ∧
    out.Pairwise (fun x y =>
      (x.2.2 = y.2.2 → x.1 + x.2.1 ≤ y.1) ∧
      (x.1 + x.2.1 ≤ y.1 ∨ y.1 + y.2.1 ≤ x.1)) := by
  revert hinv hal hfresh
  induction tr with
  | nil a0 =>
    intro hinv hal hfresh
    refine ⟨hinv, ?_, ?_, List.Pairwise.nil⟩
    · intro b hb
      exact ⟨b, hb, rfl, le_refl _⟩
    · intro x hx
      cases hx
  | @cons a size align m1 m2 p b1 rest1 reqs out a2 hstep htail ih =>
    intro hinv hal hfresh
    obtain ⟨k, hk, halign⟩ := hal (size, align, m1, m2) (List.mem_cons_self _ _)
    have halign2 : align = 2 ^ k := halign
    subst halign2
    have hmemaddr : ∀ addr, m1 = some addr ∨ m2 = some addr →
        addr ∈ req_addrs ((size, 2 ^ k, m1, m2) :: reqs) := by
      intro addr hor
      unfold req_addrs
      rcases hor with h1 | h1 <;> rw [h1] <;> simp [Option.toList]
    have htailaddrs : ∀ addr ∈ req_addrs reqs,
        addr ∈ req_addrs ((size, 2 ^ k, m1, m2) :: reqs) := by
      intro addr hmem
      unfold req_addrs
      simp [hmem]
    have hm : ∀ addr, m1 = some addr ∨ m2 = some addr →
        addr + ARENA_BLOCK_SIZE ≤ 2 ^ 63 ∧
        ∀ b ∈ a.blocks, region_disjoint b.buffer_end (addr + ARENA_BLOCK_SIZE) :=
      fun addr hor => hfresh.1 addr (hmemaddr addr hor)
    have hpair0 := hfresh.2
    have hpr : req_addrs ((size, 2 ^ k, m1, m2) :: reqs) =
        m1.toList ++ (m2.toList ++ req_addrs reqs) := by
      simp only [req_addrs]
      rw [List.append_assoc]
    rw [hpr] at hpair0
    have hmm : ∀ ad1 ad2, m1 = some ad1 → m2 = some ad2 →
        region_disjoint (ad1 + ARENA_BLOCK_SIZE) (ad2 + ARENA_BLOCK_SIZE) := by
      intro ad1 ad2 h1 h2
      refine (List.pairwise_append.mp hpair0).2.2 ad1 (by rw [h1]; simp) ad2 ?_
      rw [h2]
      simp
    obtain ⟨hinv1, hhead1, hup1, hlo1, hpersist, hheadbound, hends⟩ :=
      arena_alloc_step a size k m1 m2 p b1 rest1 hk hinv hm hmm hstep
    have hb1mem : b1.buffer_end ∈ block_ends (⟨b1 :: rest1⟩ : arena_t) := by
      unfold block_ends
      exact List.mem_map.mpr ⟨b1, List.mem_cons_self _ _, rfl⟩
    have hfresh1 : oracle_fresh ⟨b1 :: rest1⟩ reqs := by
      constructor
      · intro addr haddr
        obtain ⟨hbnd, hdis⟩ := hfresh.1 addr (htailaddrs addr haddr)
        refine ⟨hbnd, ?_⟩
        intro b hbmem
        have he := hends b.buffer_end (by
          unfold block_ends
          exact List.mem_map.mpr ⟨b, hbmem, rfl⟩)
        rcases he with he | ⟨adx, hadx, he⟩
        · rcases List.mem_map.mp he with ⟨bold, hbold, hbe⟩
          exact hbe ▸ hdis bold hbold
        · rw [he]
          rcases hadx with hx1 | hx1

          · exact (List.pairwise_append.mp hpair0).2.2 adx (by rw [hx1]; simp)
              addr (by simp [haddr])
          · exact (List.pairwise_append.mp
              (List.pairwise_append.mp hpair0).2.1).2.2 adx
              (by rw [hx1]; simp) addr haddr
      · exact (List.pairwise_append.mp
          (List.pairwise_append.mp hpair0).2.1).2.1
    obtain ⟨hinv2, hpersist2, hout2, hpair2⟩ :=
      ih hinv1 (fun r hr => hal r (List.mem_cons_of_mem _ hr)) hfresh1
    have hmem1U : b1.buffer_end ∈ block_ends a ++
        (req_addrs ((size, 2 ^ k, m1, m2) :: reqs)).map
          (fun ad => ad + ARENA_BLOCK_SIZE) := by
      rcases hends b1.buffer_end hb1mem with he | ⟨adx, hadx, he⟩
      · exact List.mem_append.mpr (Or.inl he)
      · exact List.mem_append.mpr
          (Or.inr (List.mem_map.mpr ⟨adx, hmemaddr adx hadx, he.symm⟩))
    have houtmem : ∀ y ∈ out, y.2.2 ∈ block_ends a ∨
        ∃ addr ∈ req_addrs ((size, 2 ^ k, m1, m2) :: reqs),
          y.2.2 = addr + ARENA_BLOCK_SIZE := by
      intro y hy
      obtain ⟨_, _, _, hy4, _⟩ := hout2 y hy
      rcases hy4 with he | ⟨adx, hadx, he⟩
      · rcases hends y.2.2 he with he2 | ⟨adx, hadx, he2⟩
        · exact Or.inl he2
        · exact Or.inr ⟨adx, hmemaddr adx hadx, he2⟩
      · exact Or.inr ⟨adx, htailaddrs adx hadx, he⟩
    refine ⟨hinv2, ?_, ?_, ?_⟩
    · intro b hb
      obtain ⟨bmid, hbmid, hbe, hbh⟩ := hpersist b hb
      obtain ⟨b2, hb2, hbe2, hbh2⟩ := hpersist2 bmid hbmid
      exact ⟨b2, hb2, by rw [hbe2, hbe], le_trans hbh hbh2⟩
    · intro x hx
      rcases List.mem_cons.mp hx with rfl | hx
      · have hb1inv := hinv1.1 b1 (List.mem_cons_self _ _)
        refine ⟨hb1inv.2.2.2.1, hlo1, hup1, ?_, hheadbound⟩
        rcases hends b1.buffer_end hb1mem with he | ⟨adx, hadx, he⟩
        · exact Or.inl he
        · exact Or.inr ⟨adx, hmemaddr adx hadx, he⟩
      · obtain ⟨hy1, hy2, hy3, hy4, hy5⟩ := hout2 x hx
        refine ⟨hy1, hy2, hy3, houtmem x hx, ?_⟩
        intro b hb hbe
        obtain ⟨bmid, hbmid, hbme, hbmh⟩ := hpersist b hb
        exact le_trans hbmh (hy5 bmid hbmid (by rw [hbme, hbe]))
    · refine List.Pairwise.cons ?_ hpair2
      intro y hy
      obtain ⟨hy1, hy2, hy3, hy4, hy5⟩ := hout2 y hy
      have hsame : b1.buffer_end = y.2.2 → p + size ≤ y.1 := by
        intro hbe
        have hb := hy5 b1 (List.mem_cons_self _ _) hbe
        rw [hhead1] at hb
        exact hb
      refine ⟨hsame, ?_⟩
      by_cases hbe : b1.buffer_end = y.2.2
      · exact Or.inl (hsame hbe)
      · have hu := universe_pairwise a ((size, 2 ^ k, m1, m2) :: reqs)
          hinv hfresh
        have hmem2U : y.2.2 ∈ block_ends a ++
            (req_addrs ((size, 2 ^ k, m1, m2) :: reqs)).map
              (fun ad => ad + ARENA_BLOCK_SIZE) := by
          rcases houtmem y hy with he | ⟨adx, hadx, he⟩
          · exact List.mem_append.mpr (Or.inl he)
          · exact List.mem_append.mpr
              (Or.inr (List.mem_map.mpr ⟨adx, hadx, he.symm⟩))
        have hsymm : Symmetric region_disjoint := by
          intro x1 x2 hx12
          exact region_disjoint_symm x1 x2 hx12
        have hdis := List.Pairwise.forall hsymm hu hmem1U hmem2U hbe
        have hb1inv := hinv1.1 b1 (List.mem_cons_self _ _)
        have hb1lo := hb1inv.2.2.2.1
        unfold region_disjoint at hdis
        unfold ARENA_BLOCK_SIZE ARENA_HEADER_SIZE at hy2 hlo1
        unfold ARENA_BLOCK_SIZE at hdis hy1 hb1lo
        show p + size ≤ y.1 ∨ y.1 + y.2.1 ≤ p
        omega

/-- C8 fails as stated: it quantifies over all sizes including zero,
but two successful zero-size `allocate` calls on a fresh linear
allocator both return pointer 0, so the returned pointers are not
strictly increasing. -/
theorem claim_C8_counterexample :
    (∀ r ∈ (linear_run ⟨0⟩ [0, 0]).1, r.isSome) ∧
    ¬ (((linear_run ⟨0⟩ [0, 0]).1.map (fun r => r.getD 0)).zip
        [0, 0]).Pairwise (fun x y => x.1 < y.1) := by
  decide

/-- C8 (amended): across every all-successful allocation sequence with
no reset/clear, each earlier allocation's range `[ptr, ptr + size)`
ends no later than any later allocation's pointer — for the linear
allocator as long as the sizes do not wrap its `size_t` head around
(a wrapping sequence really does produce overlapping ranges), for the
FBA (power-of-two alignments, buffer inside the address space), and,
for the arena, among allocations served from the same block; arena
allocations from different blocks never overlap either, since the
backing allocator hands out disjoint fresh regions.  Pointers are
therefore non-decreasing within a block, strictly increasing as soon
as sizes are positive, and no two returned ranges overlap. -/
theorem claim_C8_amended :
    (∀ (s : linear_state) (sizes : List Nat),
      s.head + sizes.sum < 2 ^ 64 →
      (∀ r ∈ (linear_run s sizes).1, r.isSome) →
      (((linear_run s sizes).1.map (fun r => r.getD 0)).zip sizes).Pairwise
        (fun x y => x.1 + x.2 ≤ y.1)) ∧
    (∀ (fba : fba_t) (reqs : List (Nat × Nat)),
      fba.head ≤ fba.buffer_end → fba.buffer_end ≤ 2 ^ 63 →
      (∀ r ∈ reqs, ∃ k, k ≤ 63 ∧ r.2 = 2 ^ k) →
      (∀ r ∈ (fba_run fba reqs).1, r.isSome) →
      (((fba_run fba reqs).1.map (fun r => r.getD 0)).zip
        (reqs.map (fun r => r.1))).Pairwise (fun x y => x.1 + x.2 ≤ y.1)) ∧
    (∀ (a : arena_t) (reqs : List (Nat × Nat × Option Nat × Option Nat))
      (out : List (Nat × Nat × Nat)) (a2 : arena_t),
      ArenaTrace a reqs out a2 → arena_inv a → aligns_pow2 reqs →
      oracle_fresh a reqs →
      out.Pairwise (fun x y =>
        (x.2.2 = y.2.2 → x.1 + x.2.1 ≤ y.1) ∧
        (x.1 + x.2.1 ≤ y.1 ∨ y.1 + y.2.1 ≤ x.1))) := by
  refine ⟨?_, ?_, ?_⟩
  · intro s sizes hnw hok
    exact (linear_run_chained sizes s hnw hok).pairwise_ordered
  · intro fba reqs hh hbd hal hok
    exact (fba_run_chained reqs fba hh hbd hal hok).pairwise_ordered
  · intro a reqs out a2 tr hinv hal hfresh
    exact (arena_trace_spec a reqs out a2 tr hinv hal hfresh).2.2.2

/-- Concrete instance of `claim_C8_amended`: two linear allocations of
4 and 8 bytes, two FBA allocations at alignments 4 and 8, and two
arena allocations (the first lazily creating a block at address 0) all
yield ordered, non-overlapping ranges. -/
theorem claim_C8_witness :
    (((linear_run ⟨0⟩ [4, 8]).1.map (fun r => r.getD 0)).zip [4, 8]).Pairwise
      (fun x y => x.1 + x.2 ≤ y.1) ∧
    (((fba_run (fba_init 0 1024) [(4, 4), (8, 8)]).1.map
        (fun r => r.getD 0)).zip
      ([(4, 4), (8, 8)].map (fun r => r.1))).Pairwise
      (fun x y => x.1 + x.2 ≤ y.1) ∧
    ([(24, 4, 1024), (28, 4, 1024)] : List (Nat × Nat × Nat)).Pairwise
      (fun x y => (x.2.2 = y.2.2 → x.1 + x.2.1 ≤ y.1) ∧
        (x.1 + x.2.1 ≤ y.1 ∨ y.1 + y.2.1 ≤ x.1)) := by
  have h3 : ArenaTrace ⟨[⟨1024, 32, 24⟩]⟩ [] [] ⟨[⟨1024, 32, 24⟩]⟩ :=
    ArenaTrace.nil _
  have h2 : ArenaTrace ⟨[⟨1024, 28, 24⟩]⟩ [(4, 1, none, none)]
      [(28, 4, 1024)] ⟨[⟨1024, 32, 24⟩]⟩ :=
    ArenaTrace.cons (by decide) h3
  have htr : ArenaTrace ⟨[]⟩ [(4, 1, some 0, none), (4, 1, none, none)]
      [(24, 4, 1024), (28, 4, 1024)] ⟨[⟨1024, 32, 24⟩]⟩ :=
    ArenaTrace.cons (by decide) h2
  refine ⟨claim_C8_amended.1 ⟨0⟩ [4, 8] (by decide) (by decide),
    claim_C8_amended.2.1 (fba_init 0 1024) [(4, 4), (8, 8)] (by decide)
      (by decide) ?_ (by decide),
    claim_C8_amended.2.2 ⟨[]⟩ [(4, 1, some 0, none), (4, 1, none, none)]
      [(24, 4, 1024), (28, 4, 1024)] ⟨[⟨1024, 32, 24⟩]⟩ htr (by decide)
      ?_ (by decide)⟩
  · intro r hr
    rcases List.mem_cons.mp hr with rfl | hr
    · exact ⟨2, by omega, rfl⟩
    · rcases List.mem_cons.mp hr with rfl | hr
      · exact ⟨3, by omega, rfl⟩
      · cases hr
  · unfold aligns_pow2
    intro r hr
    rcases List.mem_cons.mp hr with rfl | hr
    · exact ⟨0, by omega, rfl⟩
    · rcases List.mem_cons.mp hr with rfl | hr
      · exact ⟨0, by omega, rfl⟩
      · cases hr

end Allocators
